import Mathlib

/-!
Shallow embedding of the Conway's-Game-of-Life engine from `src/main.rs`
(structs `Vector`, `Cell`, `World` and their methods), together with proofs
of the specification's claims about it.

Rust `i32` coordinates are modelled as `Int` (no arithmetic here can reach
the `i32` boundaries: all coordinate arithmetic stays within one unit of the
grid size), `u64` frame counters as `Nat`, and fallible operations (array
indexing, which panics when out of bounds in Rust) as `Option`-returning
functions where `none` models a panic.  Randomized initial seeding
(`rand::thread_rng().gen_range(0.0..1.0) < life_chance`) is modelled by an
injected per-cell draw function `Int → Int → Bool`.
-/

set_option maxHeartbeats 1000000

namespace Conway

/-- Rust struct `Vector { x: i32, y: i32 }`. -/
structure Vector where
  x : Int
  y : Int
deriving DecidableEq, Repr

/-- Rust struct `Cell { alive: bool, coordinate: Vector }`. -/
structure Cell where
  alive : Bool
  coordinate : Vector
deriving DecidableEq, Repr

/-- Rust struct `World { frames: u64, size: Vector, cells: Vec<Vec<Cell>>, changed: bool }`.
The outer list is indexed by x, the inner by y, exactly as `cells[x][y]` in the source. -/
structure World where
  frames : Nat
  size : Vector
  cells : List (List Cell)
  changed : Bool
deriving DecidableEq, Repr

/-- Rust `const WORLD_MIN: Vector = Vector { x: 0, y: 0 }`. -/
def WORLD_MIN : Vector := ⟨0, 0⟩

/-- Rust `Vector::out_of_bounds(&self, min, max)`:
`self.x < min.x || self.y < min.y || self.x >= max.x || self.y >= max.y`. -/
def Vector.out_of_bounds (self lo hi : Vector) : Bool :=
  decide (self.x < lo.x) || decide (self.y < lo.y) ||
    decide (hi.x ≤ self.x) || decide (hi.y ≤ self.y)

/-- Lookup `cells[x][y]` by natural-number indices; `none` models an
out-of-range panic of the Rust indexing. -/
def get2? (cells : List (List Cell)) (x y : Nat) : Option Cell :=
  (cells.get? x).bind (fun row => row.get? y)

/-- Lookup `cells[x as usize][y as usize]` for `i32` indices.  A negative
index wraps to a huge `usize` in Rust and the indexing panics; here it
yields `none`. -/
def getCell? (w : World) (x y : Int) : Option Cell :=
  if 0 ≤ x ∧ 0 ≤ y then get2? w.cells x.toNat y.toNat else none

/-- Liveness at an arbitrary coordinate, with `false` outside the stored
cells (used only to state specifications; the code itself never reads an
out-of-bounds cell). -/
def aliveAt (w : World) (x y : Int) : Bool :=
  match getCell? w x y with
  | some c => c.alive
  | none => false

/-- A coordinate is in bounds when `Vector::out_of_bounds(WORLD_MIN, size)`
is false. -/
def inBounds (w : World) (v : Vector) : Bool :=
  !(v.out_of_bounds WORLD_MIN w.size)

/-- The 8 offsets of the Moore neighborhood, in the iteration order of the
source's double loop (x outer from -1 to 1, y inner), with (0,0) removed. -/
def mooreOffsets : List (Int × Int) :=
  [(-1, -1), (-1, 0), (-1, 1), (0, -1), (0, 1), (1, -1), (1, 0), (1, 1)]

/-- Whether the Moore neighbor of `(x, y)` at offset `d` is in bounds and
alive — the condition under which `determine_next_state` counts it. -/
def nbPred (w : World) (x y : Int) (d : Int × Int) : Bool :=
  inBounds w ⟨x + d.1, y + d.2⟩ && aliveAt w (x + d.1) (y + d.2)

/-- The live-neighbor count of position `(x, y)`: among the 8 Moore
offsets, those in bounds and alive.  Out-of-bounds offsets contribute
nothing (no wraparound, no reflection). -/
def mooreCount (w : World) (x y : Int) : Nat :=
  (mooreOffsets.filter (nbPred w x y)).length

/-- The `match (self.alive, living_neighbours)` at the end of
`Cell::determine_next_state`: `(true,2) | (true,3) | (false,3) => true`,
everything else `false`. -/
def lifeRule (alive : Bool) (living_neighbours : Nat) : Bool :=
  match alive, living_neighbours with
  | true, 2 => true
  | true, 3 => true
  | false, 3 => true
  | _, _ => false

/-- The 9 offsets scanned by the source's `for x in -1..=1 { for y in -1..=1 }`
double loop, in iteration order (including (0,0), which the loop body skips). -/
def offsets9 : List (Int × Int) :=
  [-1, 0, 1].bind (fun x => [-1, 0, 1].map (fun y => ((x : Int), (y : Int))))

/-- One iteration of the neighbor-scanning loop body of
`Cell::determine_next_state`: skip (0,0), skip out-of-bounds coordinates,
otherwise look the neighbor up (panic = `none`) and count it if alive. -/
def countStep (world : World) (self : Cell) : Option Nat → Int × Int → Option Nat :=
  fun acc d => acc.bind (fun n =>
    if d.1 == 0 && d.2 == 0 then some n
    else
      let lookup : Vector := ⟨self.coordinate.x + d.1, self.coordinate.y + d.2⟩
      if lookup.out_of_bounds WORLD_MIN world.size then some n
      else (getCell? world lookup.x lookup.y).map (fun c => if c.alive then n + 1 else n))

/-- The predicate under which one loop iteration of
`Cell::determine_next_state` increments `living_neighbours`. -/
def stepPredAux (w : World) (x y : Int) (d : Int × Int) : Bool :=
  (!(d.1 == 0 && d.2 == 0)) && nbPred w x y d

/-- Rust `Cell::determine_next_state(&self, world)`: scan the 9 offsets,
count living in-bounds neighbors, then apply the match on
`(self.alive, living_neighbours)`.  `none` models a panic of the lookup. -/
def Cell.determine_next_state (self : Cell) (world : World) : Option Bool :=
  (offsets9.foldl (countStep world self) (some 0)).map
    (fun living_neighbours => lifeRule self.alive living_neighbours)

/-- The (x, y) pairs visited by `World::tick`'s double loop
(`for x in 0..self.size.x { for y in 0..self.size.y }`), in order. -/
def World.tickPairs (self : World) : List (Nat × Nat) :=
  (List.range self.size.x.toNat).bind
    (fun x => (List.range self.size.y.toNat).map (fun y => (x, y)))

/-- One iteration of the collection loop of `World::tick`: read the cell
(panic = `none`), compute its next state, and push `(x, y, next_state)` when
it differs from the current state. -/
def tickStep (self : World) :
    Option (List (Nat × Nat × Bool)) → Nat × Nat → Option (List (Nat × Nat × Bool)) :=
  fun acc p => acc.bind (fun new_states =>
    (get2? self.cells p.1 p.2).bind (fun cell =>
      (cell.determine_next_state self).map (fun next_state =>
        if next_state == cell.alive then new_states
        else new_states ++ [(p.1, p.2, next_state)])))

/-- The `new_states` buffer of `World::tick` after the collection loop. -/
def World.newStates (self : World) : Option (List (Nat × Nat × Bool)) :=
  self.tickPairs.foldl (tickStep self) (some [])

/-- The write `self.cells[x][y].alive = state` of the commit loop of
`World::tick` (panic = `none`). -/
def updAlive (cells : List (List Cell)) (x y : Nat) (b : Bool) :
    Option (List (List Cell)) :=
  (cells.get? x).bind (fun row =>
    (row.get? y).map (fun cell =>
      cells.set x (row.set y { cell with alive := b })))

/-- The commit loop of `World::tick`: apply the buffered writes in order. -/
def commitWrites (cells : List (List Cell)) (l : List (Nat × Nat × Bool)) :
    Option (List (List Cell)) :=
  l.foldl (fun acc t => acc.bind (fun cs => updAlive cs t.1 t.2.1 t.2.2)) (some cells)

/-- Rust `World::tick(&mut self)`: collect the changed cells into
`new_states` reading only the pre-pass state, set `did_change` to whether the
buffer is nonempty, commit the writes, increment `frames`, store `changed`.
`frames` is a `u64`, so the increment wraps modulo `2 ^ 64`. -/
def World.tick (self : World) : Option World :=
  self.newStates.bind (fun new_states =>
    (commitWrites self.cells new_states).map (fun cells =>
      { frames := (self.frames + 1) % 2 ^ 64
        size := self.size
        cells := cells
        changed := decide (new_states.length > 0) }))

/-- `k` successive calls of `World::tick`. -/
def World.tickN (self : World) : Nat → Option World
  | 0 => some self
  | k + 1 => self.tick.bind (fun w => w.tickN k)

/-- Sequence an option-returning function over a list, keeping all results
(the shape of the row-building loops of `draw_world`). -/
def optMap {α β : Type} (f : α → Option β) : List α → Option (List β)
  | [] => some []
  | a :: l => (f a).bind (fun b => (optMap f l).map (fun bs => b :: bs))

/-- Row `y` of `World::draw_world`: the glyphs `'#'` (alive) or `' '` (dead)
for `x` from 0 to `size.x - 1`, reading `cells[x][y]` (panic = `none`). -/
def World.rowChars? (self : World) (y : Nat) : Option (List Char) :=
  optMap (fun x => (get2? self.cells x y).map (fun c => if c.alive then '#' else ' '))
    (List.range self.size.x.toNat)

/-- The rows produced by `World::draw_world`, for `y` from 0 to `size.y - 1`. -/
def World.drawRows? (self : World) : Option (List (List Char)) :=
  optMap (fun y => self.rowChars? y) (List.range self.size.y.toNat)

/-- Rust `World::draw_world(&self)`: the concatenation of the rows, each
followed by a newline. -/
def World.draw_world (self : World) : Option String :=
  self.drawRows?.map (fun rows => String.join (rows.map (fun r => String.mk r ++ "\n")))

/-- Rust `World::new(size, life_chance)`: build `size.x` rows of `size.y`
cells, each cell at coordinate `(x, y)` alive according to the injected
per-cell random draw; `frames = 0`, `changed = false`.  A non-positive
size yields empty loops, exactly as `for x in 0..size.x` does in Rust. -/
def World.new (size : Vector) (draw : Int → Int → Bool) : World :=
  { frames := 0
    size := ⟨size.x, size.y⟩
    cells := (List.range size.x.toNat).map (fun (x : Nat) =>
      (List.range size.y.toNat).map (fun (y : Nat) =>
        { coordinate := ⟨(x : Int), (y : Int)⟩, alive := draw (x : Int) (y : Int) }))
    changed := false }

/-- Well-formedness of a `World`: the cell matrix has exactly `size.x` rows
of exactly `size.y` cells, and each stored cell's `coordinate` field matches
its indices.  `World::new` establishes this and `World::tick` preserves it. -/
def WF (w : World) : Prop :=
  w.cells.length = w.size.x.toNat
  ∧ (∀ row ∈ w.cells, row.length = w.size.y.toNat)
  ∧ (∀ x y c, get2? w.cells x y = some c → c.coordinate = ⟨(x : Int), (y : Int)⟩)

/-- Current liveness at natural-number indices (`false` if out of range). -/
def curAlive (w : World) (p : Nat × Nat) : Bool :=
  match get2? w.cells p.1 p.2 with
  | some c => c.alive
  | none => false

/-- The next liveness the Life rule assigns to position `p`, computed from
the current (pre-pass) state. -/
def nextAlive (w : World) (p : Nat × Nat) : Bool :=
  lifeRule (curAlive w p) (mooreCount w p.1 p.2)

/-- The buffered writes `World::tick` produces, expressed as a pure
function of the pre-pass state. -/
def deltas (w : World) : List (Nat × Nat × Bool) :=
  w.tickPairs.filterMap (fun p =>
    if nextAlive w p = curAlive w p then none else some (p.1, p.2, nextAlive w p))

/-- Synchronous-update semantics as the spec words it: every cell's next
liveness computed by the transition rule from the pre-update snapshot, and
all results committed at once by a single map over the grid. -/
def syncUpdate (w : World) : List (List Cell) :=
  w.cells.map (fun row => row.map (fun c =>
    { c with alive := lifeRule c.alive (mooreCount w c.coordinate.x c.coordinate.y) }))

/-- The value `World::tick` computes on a well-formed world (the `u64`
frame counter wraps modulo `2 ^ 64`). -/
def tickResult (w : World) : World :=
  { frames := (w.frames + 1) % 2 ^ 64
    size := w.size
    cells := syncUpdate w
    changed := decide ((deltas w).length > 0) }

/-- The cumulative effect of a write list on the cell at `(x, y)`. -/
def applyWrites (L : List (Nat × Nat × Bool)) (x y : Nat) (o : Option Cell) : Option Cell :=
  L.foldl (fun acc t =>
    if t.1 = x ∧ t.2.1 = y then acc.map (fun c => { c with alive := t.2.2 }) else acc) o

/-- The error taxonomy the spec assigns to construction. -/
inductive ConstructError where
  | invalidDimensions
deriving DecidableEq, Repr

/-- Construction as the spec words it (spec-side definition, for comparison
with `World.new` from the source): fail with `InvalidDimensions` when width
or height is not positive, otherwise build the grid. -/
def constructSpec (size : Vector) (draw : Int → Int → Bool) :
    Except ConstructError World :=
  if size.x ≤ 0 ∨ size.y ≤ 0 then Except.error ConstructError.invalidDimensions
  else Except.ok (World.new size draw)

/-- The acceptance test of `ask_for_world_size` on one entered dimension:
`match value <= 1 { true => continue, _ => accept }` — the value is accepted
iff it is at least 2. -/
def acceptDimension (value : Int) : Bool :=
  !(decide (value ≤ 1))

/-- A 3×3 world whose only live cell is the center (used to instantiate
theorems at a concrete input). -/
def w3 : World :=
  World.new ⟨3, 3⟩ (fun x y => x == 1 && y == 1)

/-- The world `w3.tick` produces. -/
def w3t : World :=
  w3.tick.getD w3

/-- A 1×1 world with its single cell alive. -/
def w1 : World :=
  World.new ⟨1, 1⟩ (fun _ _ => true)

/-- A 4×4 world holding a 2×2 still-life block. -/
def wB : World :=
  World.new ⟨4, 4⟩ (fun x y => (x == 1 || x == 2) && (y == 1 || y == 2))

/-- The world `wB.tick` produces. -/
def wBt : World :=
  wB.tick.getD wB

/-- A well-formed 1×1 world whose `u64` frame counter holds the largest
representable value, one tick away from wrapping. -/
def wOv : World :=
  { World.new ⟨1, 1⟩ (fun _ _ => false) with frames := 2 ^ 64 - 1 }

/-- The world `wOv.tick` produces. -/
def wOvt : World :=
  wOv.tick.getD wOv

theorem out_of_bounds_eq_false {v lo hi : Vector} :
    Vector.out_of_bounds v lo hi = false ↔
      lo.x ≤ v.x ∧ lo.y ≤ v.y ∧ v.x < hi.x ∧ v.y < hi.y := by
  simp [Vector.out_of_bounds]
  omega

theorem get?_map_range {β : Type} (n : Nat) (f : Nat → β) (i : Nat) :
    ((List.range n).map f).get? i = if i < n then some (f i) else none := by
  rw [List.get?_map]
  by_cases h : i < n
  · rw [List.get?_range h, if_pos h]
    rfl
  · rw [List.get?_eq_none.mpr (by simpa [List.length_range] using Nat.le_of_not_lt h), if_neg h]
    rfl

theorem get2?_some_bounds {cells : List (List Cell)} {x y : Nat} {c : Cell}
    (h : get2? cells x y = some c) :
    ∃ row, cells.get? x = some row ∧ row.get? y = some c := by
  rw [get2?] at h
  cases hrow : cells.get? x with
  | none => rw [hrow] at h; simp at h
  | some row => exact ⟨row, rfl, by rw [hrow] at h; simpa using h⟩

theorem wf_get2 {w : World} (hw : WF w) {x y : Nat}
    (hx : x < w.size.x.toNat) (hy : y < w.size.y.toNat) :
    ∃ c, get2? w.cells x y = some c ∧ c.coordinate = ⟨(x : Int), (y : Int)⟩ := by
  obtain ⟨hlen, hrows, hcoord⟩ := hw
  have hx' : x < w.cells.length := by omega
  obtain ⟨row, hrow⟩ : ∃ row, w.cells.get? x = some row :=
    ⟨w.cells.get ⟨x, hx'⟩, List.get?_eq_get hx'⟩
  have hy' : y < row.length := by
    rw [hrows row (List.get?_mem hrow)]; omega
  obtain ⟨c, hc⟩ : ∃ c, row.get? y = some c :=
    ⟨row.get ⟨y, hy'⟩, List.get?_eq_get hy'⟩
  have h2 : get2? w.cells x y = some c := by rw [get2?, hrow]; simpa using hc
  exact ⟨c, h2, hcoord x y c h2⟩

theorem WF_new (size : Vector) (draw : Int → Int → Bool) : WF (World.new size draw) := by
  refine ⟨by simp [World.new], ?_, ?_⟩
  · intro row hrow
    simp only [World.new, List.mem_map, List.mem_range] at hrow
    obtain ⟨x, _, rfl⟩ := hrow
    simp [World.new]
  · intro x y c hc
    rw [World.new, get2?] at hc
    simp only at hc
    rw [get?_map_range] at hc
    by_cases hx : x < size.x.toNat
    · rw [if_pos hx, Option.some_bind, get?_map_range] at hc
      by_cases hy : y < size.y.toNat
      · rw [if_pos hy] at hc
        cases hc
        rfl
      · rw [if_neg hy] at hc; cases hc
    · rw [if_neg hx] at hc; cases hc

theorem getCell?_of_inBounds {w : World} (hw : WF w) {X Y : Int}
    (h : Vector.out_of_bounds ⟨X, Y⟩ WORLD_MIN w.size = false) :
    ∃ c, getCell? w X Y = some c ∧ aliveAt w X Y = c.alive := by
  rw [out_of_bounds_eq_false] at h
  simp only [WORLD_MIN] at h
  obtain ⟨h0x, h0y, hxs, hys⟩ := h
  have hx : X.toNat < w.size.x.toNat := by omega
  have hy : Y.toNat < w.size.y.toNat := by omega
  obtain ⟨c, hc, _⟩ := wf_get2 hw hx hy
  have hg : getCell? w X Y = some c := by
    rw [getCell?, if_pos ⟨h0x, h0y⟩]
    exact hc
  exact ⟨c, hg, by rw [aliveAt, hg]⟩

theorem foldl_countStep {w : World} (hw : WF w) (c : Cell) :
    ∀ (l : List (Int × Int)) (n : Nat),
      l.foldl (countStep w c) (some n) =
        some (n + (l.filter (stepPredAux w c.coordinate.x c.coordinate.y)).length) := by
  intro l
  induction l with
  | nil => intro n; simp
  | cons d l ih =>
    intro n
    rw [List.foldl_cons]
    by_cases h0 : (d.1 == 0 && d.2 == 0) = true
    · have hstep : countStep w c (some n) d = some n := by
        simp [countStep, h0]
      rw [hstep, ih, List.filter_cons,
        if_neg (by simp [stepPredAux, h0])]
    · by_cases hb :
        Vector.out_of_bounds ⟨c.coordinate.x + d.1, c.coordinate.y + d.2⟩ WORLD_MIN w.size = true
      · have hstep : countStep w c (some n) d = some n := by
          simp [countStep, h0, hb]
        have hpred : stepPredAux w c.coordinate.x c.coordinate.y d = false := by
          simp [stepPredAux, nbPred, inBounds, hb]
        rw [hstep, ih, List.filter_cons, if_neg (by simp [hpred])]
      · have hb' :
          Vector.out_of_bounds ⟨c.coordinate.x + d.1, c.coordinate.y + d.2⟩ WORLD_MIN w.size
            = false := by
          simpa using hb
        have h0' : (d.1 == 0 && d.2 == 0) = false := by
          simpa using h0
        obtain ⟨c', hc', halive⟩ := getCell?_of_inBounds hw hb'
        have hstep : countStep w c (some n) d = some (if c'.alive then n + 1 else n) := by
          simp [countStep, h0', hb', hc']
        have hpred : stepPredAux w c.coordinate.x c.coordinate.y d = c'.alive := by
          simp [stepPredAux, nbPred, inBounds, h0', hb', halive]
        rw [hstep]
        cases ha : c'.alive with
        | true =>
          have hr : (if (true : Bool) = true then n + 1 else n) = n + 1 := rfl
          rw [hr, ih, List.filter_cons, if_pos (hpred.trans ha)]
          simp only [Option.some.injEq, List.length_cons]
          omega
        | false =>
          have hr : (if (false : Bool) = true then n + 1 else n) = n := rfl
          rw [hr, ih, List.filter_cons, if_neg (by simp [hpred, ha])]

theorem filter9 (w : World) (x y : Int) :
    offsets9.filter (stepPredAux w x y) = mooreOffsets.filter (nbPred w x y) := by
  have h9 : offsets9 =
      [(-1, -1), (-1, 0), (-1, 1), (0, -1), (0, 0), (0, 1), (1, -1), (1, 0), (1, 1)] := by
    decide
  have e1 : stepPredAux w x y (-1, -1) = nbPred w x y (-1, -1) := rfl
  have e2 : stepPredAux w x y (-1, 0) = nbPred w x y (-1, 0) := rfl
  have e3 : stepPredAux w x y (-1, 1) = nbPred w x y (-1, 1) := rfl
  have e4 : stepPredAux w x y (0, -1) = nbPred w x y (0, -1) := rfl
  have e5 : stepPredAux w x y (0, 1) = nbPred w x y (0, 1) := rfl
  have e6 : stepPredAux w x y (1, -1) = nbPred w x y (1, -1) := rfl
  have e7 : stepPredAux w x y (1, 0) = nbPred w x y (1, 0) := rfl
  have e8 : stepPredAux w x y (1, 1) = nbPred w x y (1, 1) := rfl
  have ez : stepPredAux w x y (0, 0) = false := rfl
  rw [h9, mooreOffsets]
  simp only [List.filter_cons, List.filter_nil, e1, e2, e3, e4, e5, e6, e7, e8, ez,
    Bool.false_eq_true, if_false]

theorem determine_next_state_eq {w : World} (hw : WF w) (c : Cell) :
    c.determine_next_state w =
      some (lifeRule c.alive (mooreCount w c.coordinate.x c.coordinate.y)) := by
  rw [Cell.determine_next_state, foldl_countStep hw c, Option.map_some']
  rw [Nat.zero_add, mooreCount, filter9]

theorem mem_tickPairs {w : World} {p : Nat × Nat} :
    p ∈ w.tickPairs ↔ p.1 < w.size.x.toNat ∧ p.2 < w.size.y.toNat := by
  obtain ⟨a, b⟩ := p
  simp only [World.tickPairs, List.mem_flatMap, List.mem_map, List.mem_range]
  constructor
  · rintro ⟨x, hx, y, hy, h⟩
    cases h
    exact ⟨hx, hy⟩
  · rintro ⟨ha, hb⟩
    exact ⟨a, ha, b, hb, rfl⟩

theorem foldl_tickStep {w : World} (hw : WF w) :
    ∀ ps : List (Nat × Nat),
      (∀ p ∈ ps, p.1 < w.size.x.toNat ∧ p.2 < w.size.y.toNat) →
      ∀ acc : List (Nat × Nat × Bool),
        ps.foldl (tickStep w) (some acc) =
          some (acc ++ ps.filterMap (fun p =>
            if nextAlive w p = curAlive w p then none
            else some (p.1, p.2, nextAlive w p))) := by
  intro ps
  induction ps with
  | nil => intro _ acc; simp
  | cons p ps ih =>
    intro hmem acc
    obtain ⟨hx, hy⟩ := hmem p (List.mem_cons_self p ps)
    obtain ⟨c, hc, hcoord⟩ := wf_get2 hw hx hy
    have hcur : curAlive w p = c.alive := by
      rw [curAlive, hc]
    have hdns : c.determine_next_state w = some (nextAlive w p) := by
      rw [determine_next_state_eq hw c, hcoord, nextAlive, hcur]
    have hstep : tickStep w (some acc) p =
        some (if nextAlive w p = curAlive w p then acc
          else acc ++ [(p.1, p.2, nextAlive w p)]) := by
      simp only [tickStep, Option.some_bind, hc, hdns, Option.map_some']
      by_cases h : nextAlive w p = curAlive w p
      · rw [if_pos (by simp [h, hcur]), if_pos h]
      · rw [if_neg (by simp [hcur] at h ⊢; exact h), if_neg h]
    rw [List.foldl_cons, hstep, List.filterMap_cons]
    by_cases h : nextAlive w p = curAlive w p
    · rw [if_pos h]
      simp only [h, if_pos rfl]
      exact ih (fun q hq => hmem q (List.mem_cons_of_mem p hq)) acc
    · rw [if_neg h]
      simp only [h, if_neg h]
      rw [ih (fun q hq => hmem q (List.mem_cons_of_mem p hq))]
      simp

theorem newStates_eq {w : World} (hw : WF w) : w.newStates = some (deltas w) := by
  rw [World.newStates, deltas,
    foldl_tickStep hw w.tickPairs (fun p hp => mem_tickPairs.mp hp) []]
  simp

theorem updAlive_eq {cells : List (List Cell)} {x y : Nat} {c : Cell}
    (hc : get2? cells x y = some c) (b : Bool) :
    ∃ cs', updAlive cells x y b = some cs'
      ∧ cs'.length = cells.length
      ∧ (∀ i, (cs'.get? i).map List.length = (cells.get? i).map List.length)
      ∧ (∀ i j, get2? cs' i j =
          if i = x ∧ j = y then some { c with alive := b } else get2? cells i j) := by
  obtain ⟨row, hrow, hcy⟩ := get2?_some_bounds hc
  refine ⟨cells.set x (row.set y { c with alive := b }), ?_, List.length_set .., ?_, ?_⟩
  · rw [updAlive, hrow, Option.some_bind, hcy, Option.map_some']
  · intro i
    by_cases hi : x = i
    · subst hi
      rw [List.get?_set_eq, hrow]
      simp
    · rw [List.get?_set_ne _ _ hi]
  · intro i j
    by_cases hi : i = x
    · subst hi
      have hone : (cells.set i (row.set y { c with alive := b })).get? i
          = some (row.set y { c with alive := b }) := by
        rw [List.get?_set_eq, hrow]
        rfl
      rw [get2?, hone, Option.some_bind]
      by_cases hj : j = y
      · subst hj
        rw [if_pos ⟨rfl, rfl⟩, List.get?_set_eq, hcy]
        rfl
      · rw [if_neg (fun hk => hj hk.2), List.get?_set_ne _ _ (fun he => hj he.symm),
          get2?, hrow, Option.some_bind]
    · rw [if_neg (fun hk => hi hk.1), get2?,
        List.get?_set_ne _ _ (fun he => hi he.symm), get2?]

theorem commitWrites_char :
    ∀ (L : List (Nat × Nat × Bool)) (cells : List (List Cell)),
      (∀ t ∈ L, ∃ c, get2? cells t.1 t.2.1 = some c) →
      ∃ cs', commitWrites cells L = some cs'
        ∧ cs'.length = cells.length
        ∧ (∀ i, (cs'.get? i).map List.length = (cells.get? i).map List.length)
        ∧ (∀ i j, get2? cs' i j = applyWrites L i j (get2? cells i j)) := by
  intro L
  induction L with
  | nil => exact fun cells _ => ⟨cells, rfl, rfl, fun _ => rfl, fun _ _ => rfl⟩
  | cons t L ih =>
    intro cells hmem
    obtain ⟨c, hc⟩ := hmem t (List.mem_cons_self t L)
    obtain ⟨cs₁, h₁, hlen₁, hrow₁, hget₁⟩ := updAlive_eq hc t.2.2
    have hmem' : ∀ t' ∈ L, ∃ c', get2? cs₁ t'.1 t'.2.1 = some c' := by
      intro t' ht'
      obtain ⟨c', hc'⟩ := hmem t' (List.mem_cons_of_mem t ht')
      rw [hget₁]
      by_cases hk : t'.1 = t.1 ∧ t'.2.1 = t.2.1
      · exact ⟨_, if_pos hk⟩
      · exact ⟨c', (if_neg hk).trans hc'⟩
    obtain ⟨cs', h₂, hlen₂, hrow₂, hget₂⟩ := ih cs₁ hmem'
    have hcomm : commitWrites cells (t :: L) = commitWrites cs₁ L := by
      rw [commitWrites, List.foldl_cons, Option.some_bind, h₁, commitWrites]
    refine ⟨cs', by rw [hcomm, h₂], hlen₂.trans hlen₁,
      fun i => (hrow₂ i).trans (hrow₁ i), fun i j => ?_⟩
    have hcons : applyWrites (t :: L) i j (get2? cells i j) =
        applyWrites L i j
          (if t.1 = i ∧ t.2.1 = j
            then (get2? cells i j).map (fun c => { c with alive := t.2.2 })
            else get2? cells i j) := rfl
    rw [hget₂, hget₁, hcons]
    by_cases hk : i = t.1 ∧ j = t.2.1
    · obtain ⟨hk1, hk2⟩ := hk
      subst hk1
      subst hk2
      rw [if_pos ⟨rfl, rfl⟩, if_pos ⟨rfl, rfl⟩, hc]
      rfl
    · rw [if_neg hk, if_neg (fun hk' => hk ⟨hk'.1.symm, hk'.2.symm⟩)]

theorem applyWrites_map_self (o : Option Cell) (b : Bool) :
    (o.map (fun c => { c with alive := b })).map (fun c => { c with alive := b })
      = o.map (fun c => { c with alive := b }) := by
  cases o <;> rfl

theorem applyWrites_const (x y : Nat) (b₀ : Bool) :
    ∀ L : List (Nat × Nat × Bool),
      (∀ t ∈ L, t.1 = x → t.2.1 = y → t.2.2 = b₀) →
      ∀ o, applyWrites L x y o =
        if L.any (fun t => t.1 == x && t.2.1 == y)
        then o.map (fun c => { c with alive := b₀ }) else o := by
  intro L
  induction L with
  | nil => intro _ o; simp [applyWrites]
  | cons t L ih =>
    intro h o
    have htail : ∀ t' ∈ L, t'.1 = x → t'.2.1 = y → t'.2.2 = b₀ :=
      fun t' ht' => h t' (List.mem_cons_of_mem t ht')
    have hcons : applyWrites (t :: L) x y o =
        applyWrites L x y
          (if t.1 = x ∧ t.2.1 = y then o.map (fun c => { c with alive := t.2.2 }) else o) := by
      rw [applyWrites, List.foldl_cons, applyWrites]
    rw [hcons]
    by_cases hk : t.1 = x ∧ t.2.1 = y
    · have hb : t.2.2 = b₀ := h t (List.mem_cons_self t L) hk.1 hk.2
      rw [if_pos hk, hb, ih htail]
      have hany : (t :: L).any (fun t => t.1 == x && t.2.1 == y) = true := by
        simp [List.any_cons, hk.1, hk.2]
      rw [hany, if_pos rfl]
      by_cases ha : L.any (fun t => t.1 == x && t.2.1 == y) = true
      · rw [ha, if_pos rfl, applyWrites_map_self]
      · rw [if_neg ha]
    · rw [if_neg hk, ih htail]
      have hany : (t :: L).any (fun t => t.1 == x && t.2.1 == y)
          = L.any (fun t => t.1 == x && t.2.1 == y) := by
        have : (t.1 == x && t.2.1 == y) = false := by
          rcases Decidable.not_and_iff_or_not.mp hk with h1 | h1 <;> simp [h1]
        simp [List.any_cons, this]
      rw [hany]

theorem deltas_mem {w : World} {t : Nat × Nat × Bool} (ht : t ∈ deltas w) :
    (t.1, t.2.1) ∈ w.tickPairs
      ∧ t.2.2 = nextAlive w (t.1, t.2.1)
      ∧ nextAlive w (t.1, t.2.1) ≠ curAlive w (t.1, t.2.1) := by
  rw [deltas, List.mem_filterMap] at ht
  obtain ⟨p, hp, hf⟩ := ht
  by_cases h : nextAlive w p = curAlive w p
  · rw [if_pos h] at hf
    cases hf
  · rw [if_neg h] at hf
    obtain ⟨a, b⟩ := p
    obtain ⟨t1, t2, t3⟩ := t
    cases hf
    exact ⟨hp, rfl, h⟩

theorem mem_deltas {w : World} {p : Nat × Nat} (hp : p ∈ w.tickPairs)
    (hne : nextAlive w p ≠ curAlive w p) :
    (p.1, p.2, nextAlive w p) ∈ deltas w := by
  rw [deltas, List.mem_filterMap]
  exact ⟨p, hp, by rw [if_neg hne]⟩

theorem wf_get2_none {w : World} (hw : WF w) {i j : Nat}
    (h : ¬(i < w.size.x.toNat ∧ j < w.size.y.toNat)) : get2? w.cells i j = none := by
  obtain ⟨hlen, hrows, _⟩ := hw
  by_cases hi : i < w.size.x.toNat
  · have hj : ¬ j < w.size.y.toNat := fun hj => h ⟨hi, hj⟩
    cases hrow : w.cells.get? i with
    | none => rw [get2?, hrow]; rfl
    | some row =>
      rw [get2?, hrow, Option.some_bind]
      exact List.get?_eq_none.mpr (by rw [hrows row (List.get?_mem hrow)]; omega)
  · rw [get2?, List.get?_eq_none.mpr (by omega), Option.none_bind]

theorem get2?_syncUpdate (w : World) (i j : Nat) :
    get2? (syncUpdate w) i j = (get2? w.cells i j).map
      (fun c => { c with alive := lifeRule c.alive (mooreCount w c.coordinate.x c.coordinate.y) }) := by
  rw [get2?, syncUpdate, List.get?_map, get2?]
  cases h : w.cells.get? i with
  | none => rfl
  | some row =>
    simp only [Option.map_some', Option.some_bind, List.get?_map]

theorem syncUpdate_rowlen (w : World) (i : Nat) :
    ((syncUpdate w).get? i).map List.length = (w.cells.get? i).map List.length := by
  rw [syncUpdate, List.get?_map]
  cases w.cells.get? i <;> simp

theorem deltas_any_iff {w : World} {i j : Nat} :
    (deltas w).any (fun t => t.1 == i && t.2.1 == j) = true ↔
      ((i, j) ∈ w.tickPairs ∧ nextAlive w (i, j) ≠ curAlive w (i, j)) := by
  constructor
  · intro h
    obtain ⟨t, ht, hb⟩ := List.any_eq_true.mp h
    obtain ⟨hp, hval, hne⟩ := deltas_mem ht
    simp only [Bool.and_eq_true, beq_iff_eq] at hb
    obtain ⟨h1, h2⟩ := hb
    rw [h1, h2] at hp hne
    exact ⟨hp, hne⟩
  · rintro ⟨hp, hne⟩
    exact List.any_eq_true.mpr ⟨(i, j, nextAlive w (i, j)), mem_deltas hp hne, by simp⟩

theorem applyWrites_deltas {w : World} (hw : WF w) (i j : Nat) :
    applyWrites (deltas w) i j (get2? w.cells i j) = get2? (syncUpdate w) i j := by
  rw [get2?_syncUpdate]
  by_cases hij : i < w.size.x.toNat ∧ j < w.size.y.toNat
  · obtain ⟨c, hc, hcoord⟩ := wf_get2 hw hij.1 hij.2
    have hb₀ : ∀ t ∈ deltas w, t.1 = i → t.2.1 = j → t.2.2 = nextAlive w (i, j) := by
      intro t ht h1 h2
      obtain ⟨_, hval, _⟩ := deltas_mem ht
      rw [hval, h1, h2]
    rw [applyWrites_const i j (nextAlive w (i, j)) (deltas w) hb₀]
    obtain ⟨ca, cc⟩ := c
    simp only at hcoord
    subst hcoord
    have hcur : curAlive w (i, j) = ca := by
      simp [curAlive, hc]
    have hnextc : nextAlive w (i, j) = lifeRule ca (mooreCount w (i : Int) (j : Int)) := by
      rw [nextAlive, hcur]
    by_cases hne : nextAlive w (i, j) = curAlive w (i, j)
    · rw [if_neg (fun h => (deltas_any_iff.mp h).2 hne), hc, Option.map_some']
      have : lifeRule ca (mooreCount w (i : Int) (j : Int)) = ca := by
        rw [← hnextc, hne, hcur]
      simp only [this]
    · rw [if_pos (deltas_any_iff.mpr ⟨mem_tickPairs.mpr hij, hne⟩), hc,
        Option.map_some', Option.map_some']
      simp only [hnextc]
  · have hnone : get2? w.cells i j = none := wf_get2_none hw hij
    rw [hnone]
    have hb₀ : ∀ t ∈ deltas w, t.1 = i → t.2.1 = j → t.2.2 = false := by
      intro t ht h1 h2
      obtain ⟨hp, _, _⟩ := deltas_mem ht
      rw [h1, h2] at hp
      exact absurd (mem_tickPairs.mp hp) hij
    rw [applyWrites_const i j false (deltas w) hb₀]
    cases (deltas w).any (fun t => t.1 == i && t.2.1 == j) <;> rfl

theorem list2_ext {A B : List (List Cell)}
    (hrowlen : ∀ i, (A.get? i).map List.length = (B.get? i).map List.length)
    (hget : ∀ i j, get2? A i j = get2? B i j) : A = B := by
  apply List.ext
  intro i
  cases hA : A.get? i with
  | none =>
    have h := hrowlen i
    rw [hA] at h
    cases hB : B.get? i with
    | none => rfl
    | some r => rw [hB] at h; cases h
  | some r₁ =>
    cases hB : B.get? i with
    | none =>
      have h := hrowlen i
      rw [hA, hB] at h
      cases h
    | some r₂ =>
      have : r₁ = r₂ := by
        apply List.ext
        intro j
        have h := hget i j
        rw [get2?, get2?, hA, hB, Option.some_bind, Option.some_bind] at h
        exact h
      rw [this]

theorem tick_master {w : World} (hw : WF w) : w.tick = some (tickResult w) := by
  have hpre : ∀ t ∈ deltas w, ∃ c, get2? w.cells t.1 t.2.1 = some c := by
    intro t ht
    obtain ⟨hp, _, _⟩ := deltas_mem ht
    obtain ⟨hx, hy⟩ := mem_tickPairs.mp hp
    obtain ⟨c, hc, _⟩ := wf_get2 hw hx hy
    exact ⟨c, hc⟩
  obtain ⟨cs', hcs, hlen, hrowlen, hget⟩ := commitWrites_char (deltas w) w.cells hpre
  have hsync : cs' = syncUpdate w :=
    list2_ext (fun i => (hrowlen i).trans (syncUpdate_rowlen w i).symm)
      (fun i j => (hget i j).trans (applyWrites_deltas hw i j))
  rw [World.tick, newStates_eq hw, Option.some_bind, hcs, Option.map_some', hsync]
  rfl

theorem get2?_syncUpdate_some {w : World} {i j : Nat} {c' : Cell}
    (h : get2? (syncUpdate w) i j = some c') :
    ∃ c, get2? w.cells i j = some c ∧ c'.coordinate = c.coordinate ∧
      c'.alive = lifeRule c.alive (mooreCount w c.coordinate.x c.coordinate.y) := by
  rw [get2?_syncUpdate] at h
  cases hg : get2? w.cells i j with
  | none => rw [hg] at h; cases h
  | some c =>
    rw [hg, Option.map_some'] at h
    cases h
    exact ⟨c, rfl, rfl, rfl⟩

theorem WF_tickResult {w : World} (hw : WF w) : WF (tickResult w) := by
  obtain ⟨hlen, hrows, hcoord⟩ := hw
  refine ⟨?_, ?_, ?_⟩
  · show (syncUpdate w).length = w.size.x.toNat
    rw [syncUpdate, List.length_map]
    exact hlen
  · intro row hrow
    obtain ⟨r, hr, rfl⟩ := List.mem_map.mp hrow
    show (r.map _).length = w.size.y.toNat
    rw [List.length_map]
    exact hrows r hr
  · intro x y c hc
    obtain ⟨c₀, hc₀, hco, _⟩ := get2?_syncUpdate_some hc
    rw [hco]
    exact hcoord x y c₀ hc₀

theorem curAlive_tickResult {w : World} (hw : WF w) {x y : Nat}
    (hx : x < w.size.x.toNat) (hy : y < w.size.y.toNat) :
    curAlive (tickResult w) (x, y) = nextAlive w (x, y) := by
  obtain ⟨c, hc, hcoord⟩ := wf_get2 hw hx hy
  have hres : get2? (tickResult w).cells x y =
      some { c with alive := lifeRule c.alive (mooreCount w c.coordinate.x c.coordinate.y) } := by
    show get2? (syncUpdate w) x y = _
    rw [get2?_syncUpdate, hc, Option.map_some']
  have hcur : curAlive w (x, y) = c.alive := by
    simp [curAlive, hc]
  rw [nextAlive, hcur]
  simp [curAlive, hres, hcoord]

theorem tickResult_changed_iff {w : World} (hw : WF w) :
    (tickResult w).changed = true ↔
      ∃ x y : Nat, x < w.size.x.toNat ∧ y < w.size.y.toNat ∧
        curAlive (tickResult w) (x, y) ≠ curAlive w (x, y) := by
  show decide ((deltas w).length > 0) = true ↔ _
  rw [decide_eq_true_iff]
  constructor
  · intro h
    have hne : deltas w ≠ [] := by
      intro he
      rw [he] at h
      simp at h
    obtain ⟨t, ht⟩ := List.exists_mem_of_ne_nil _ hne
    obtain ⟨hp, hval, hnee⟩ := deltas_mem ht
    obtain ⟨hx, hy⟩ := mem_tickPairs.mp hp
    refine ⟨t.1, t.2.1, hx, hy, ?_⟩
    rw [curAlive_tickResult hw hx hy]
    exact hnee
  · rintro ⟨x, y, hx, hy, hne⟩
    rw [curAlive_tickResult hw hx hy] at hne
    have hmem : (x, y, nextAlive w (x, y)) ∈ deltas w :=
      mem_deltas (mem_tickPairs.mpr ⟨hx, hy⟩) hne
    have : deltas w ≠ [] := by
      intro he
      rw [he] at hmem
      cases hmem
    exact List.length_pos.mpr this

theorem tickN_master {w : World} (hw : WF w) (k : Nat) :
    ∃ w', w.tickN k = some w' ∧ WF w' ∧ w'.size = w.size
      ∧ (w'.frames = (w.frames + k) % 2 ^ 64 ∨ (k = 0 ∧ w'.frames = w.frames))
      ∧ (∀ i, (w'.cells.get? i).map List.length = (w.cells.get? i).map List.length)
      ∧ (∀ i j c', get2? w'.cells i j = some c' →
          ∃ c, get2? w.cells i j = some c ∧ c'.coordinate = c.coordinate) := by
  induction k generalizing w with
  | zero =>
    exact ⟨w, rfl, hw, rfl, Or.inr ⟨rfl, rfl⟩, fun i => rfl, fun i j c' h => ⟨c', h, rfl⟩⟩
  | succ k ih =>
    obtain ⟨w', h1, h2, h3, h4, h5, h6⟩ := ih (WF_tickResult hw)
    have hsz : (tickResult w).size = w.size := rfl
    have hfr : (tickResult w).frames = (w.frames + 1) % 2 ^ 64 := rfl
    have hframes : w'.frames = (w.frames + (k + 1)) % 2 ^ 64 := by
      rcases h4 with h4 | ⟨rfl, h4⟩
      · rw [h4, hfr, Nat.mod_add_mod]
        congr 1
        omega
      · rw [h4, hfr]
    refine ⟨w', ?_, h2, h3.trans hsz, Or.inl hframes, ?_, ?_⟩
    · show w.tick.bind (fun u => u.tickN k) = some w'
      rw [tick_master hw, Option.some_bind]
      exact h1
    · intro i
      exact (h5 i).trans (syncUpdate_rowlen w i)
    · intro i j c' hc'
      obtain ⟨c₁, hc₁, hco₁⟩ := h6 i j c' hc'
      obtain ⟨c₀, hc₀, hco₀, _⟩ := get2?_syncUpdate_some hc₁
      exact ⟨c₀, hc₀, hco₁.trans hco₀⟩

theorem quiescent_cells {w : World} (hw : WF w) (h : deltas w = []) :
    syncUpdate w = w.cells := by
  apply list2_ext (fun i => syncUpdate_rowlen w i)
  intro i j
  rw [get2?_syncUpdate]
  cases hg : get2? w.cells i j with
  | none => rfl
  | some c =>
    rw [Option.map_some']
    have hb : i < w.size.x.toNat ∧ j < w.size.y.toNat := by
      by_contra hnb
      rw [wf_get2_none hw hnb] at hg
      cases hg
    have hp : (i, j) ∈ w.tickPairs := mem_tickPairs.mpr hb
    have hfp := List.filterMap_eq_nil.mp h _ hp
    have heq : nextAlive w (i, j) = curAlive w (i, j) := by
      by_cases hx : nextAlive w (i, j) = curAlive w (i, j)
      · exact hx
      · rw [if_neg hx] at hfp
        cases hfp
    have hcoord := hw.2.2 i j c hg
    have hcur : curAlive w (i, j) = c.alive := by
      simp [curAlive, hg]
    obtain ⟨ca, cc⟩ := c
    simp only at hcoord hcur
    subst hcoord
    have hlr : lifeRule ca (mooreCount w (i : Int) (j : Int)) = ca := by
      have h1 : nextAlive w (i, j) = lifeRule ca (mooreCount w (i : Int) (j : Int)) := by
        rw [nextAlive, hcur]
      rw [← h1, heq, hcur]
    simp only [hlr]

theorem deltas_congr {w₁ w₂ : World} (hs : w₁.size = w₂.size) (hc : w₁.cells = w₂.cells) :
    deltas w₁ = deltas w₂ := by
  obtain ⟨f₁, s₁, c₁, b₁⟩ := w₁
  obtain ⟨f₂, s₂, c₂, b₂⟩ := w₂
  simp only at hs hc
  cases hs
  cases hc
  rfl

theorem WF_congr {w₁ w₂ : World} (hs : w₁.size = w₂.size) (hc : w₁.cells = w₂.cells)
    (hw : WF w₁) : WF w₂ := by
  obtain ⟨f₁, s₁, c₁, b₁⟩ := w₁
  obtain ⟨f₂, s₂, c₂, b₂⟩ := w₂
  simp only at hs hc
  cases hs
  cases hc
  exact hw

theorem optMap_eq_map {α β : Type} (f : α → Option β) (g : α → β) :
    ∀ l : List α, (∀ a ∈ l, f a = some (g a)) → optMap f l = some (l.map g) := by
  intro l
  induction l with
  | nil => intro _; rfl
  | cons a l ih =>
    intro h
    simp [optMap, h a (List.mem_cons_self a l),
      ih (fun b hb => h b (List.mem_cons_of_mem a hb))]

theorem rowChars?_eq {w : World} (hw : WF w) {y : Nat} (hy : y < w.size.y.toNat) :
    w.rowChars? y = some ((List.range w.size.x.toNat).map
      (fun x => if curAlive w (x, y) then '#' else ' ')) := by
  apply optMap_eq_map
  intro x hx
  obtain ⟨c, hc, _⟩ := wf_get2 hw (List.mem_range.mp hx) hy
  have hcur : curAlive w (x, y) = c.alive := by
    simp [curAlive, hc]
  rw [hc, Option.map_some', hcur]

theorem drawRows?_eq {w : World} (hw : WF w) :
    w.drawRows? = some ((List.range w.size.y.toNat).map (fun y =>
      (List.range w.size.x.toNat).map (fun x => if curAlive w (x, y) then '#' else ' '))) := by
  apply optMap_eq_map
  intro y hy
  exact rowChars?_eq hw (List.mem_range.mp hy)

theorem lifeRule_true_iff (a : Bool) (n : Nat) :
    lifeRule a n = true ↔ ((a = true ∧ (n = 2 ∨ n = 3)) ∨ (a = false ∧ n = 3)) := by
  cases a <;> rcases n with _ | _ | _ | _ | n <;> simp [lifeRule]

/-- C1: for every well-formed world, `World::tick` succeeds and commits exactly
the synchronous map of the transition rule over the pre-pass snapshot: the
resulting cell matrix is `syncUpdate`, and every in-range cell's new liveness
is the rule applied to its pre-pass liveness and pre-pass neighbor count.  No
cell's neighbor count is influenced by a value updated in the same pass. -/
theorem tick_is_synchronous_map (w : World) (hw : WF w) :
    ∃ w', w.tick = some w' ∧ w'.cells = syncUpdate w ∧
      (∀ x y : Nat, x < w.size.x.toNat → y < w.size.y.toNat →
        curAlive w' (x, y) = lifeRule (curAlive w (x, y)) (mooreCount w (x : Int) (y : Int))) :=
  ⟨tickResult w, tick_master hw, rfl,
    fun _ _ hx hy => curAlive_tickResult hw hx hy⟩

/-- C1 witness: the synchronous-update theorem instantiated at the concrete
3×3 world `w3`. -/
theorem tick_is_synchronous_map_witness :
    ∃ w', w3.tick = some w' ∧ w'.cells = syncUpdate w3 ∧
      (∀ x y : Nat, x < w3.size.x.toNat → y < w3.size.y.toNat →
        curAlive w' (x, y) = lifeRule (curAlive w3 (x, y)) (mooreCount w3 (x : Int) (y : Int))) :=
  tick_is_synchronous_map w3 (WF_new _ _)

/-- C2: the next state `determine_next_state` computes is `true` exactly when
the cell is alive with 2 or 3 live neighbors, or dead with exactly 3 live
neighbors; every other combination yields `false`. -/
theorem next_state_follows_life_rule (w : World) (hw : WF w) (c : Cell) :
    ∃ b, c.determine_next_state w = some b ∧
      (b = true ↔
        ((c.alive = true ∧ (mooreCount w c.coordinate.x c.coordinate.y = 2
            ∨ mooreCount w c.coordinate.x c.coordinate.y = 3))
          ∨ (c.alive = false ∧ mooreCount w c.coordinate.x c.coordinate.y = 3))) :=
  ⟨_, determine_next_state_eq hw c, lifeRule_true_iff _ _⟩

/-- C2 witness: the transition-rule theorem instantiated at the concrete 3×3
world `w3` and its center cell. -/
theorem next_state_follows_life_rule_witness :
    ∃ b, Cell.determine_next_state ⟨true, ⟨1, 1⟩⟩ w3 = some b ∧
      (b = true ↔
        (((true : Bool) = true ∧ (mooreCount w3 1 1 = 2 ∨ mooreCount w3 1 1 = 3))
          ∨ ((true : Bool) = false ∧ mooreCount w3 1 1 = 3))) :=
  next_state_follows_life_rule w3 (WF_new _ _) ⟨true, ⟨1, 1⟩⟩

/-- C3: the live-neighbor count used by `determine_next_state` is
`mooreCount`, which examines exactly the 8 Moore offsets and counts only
offsets that are in `[0,width) × [0,height)` and alive; at the corner (0,0)
only the 3 offsets (0,1), (1,0), (1,1) can ever contribute (there is no
wraparound to the opposite edge), so the count there is at most 3. -/
theorem neighbor_count_moore_bounded (w : World) (hw : WF w) (c : Cell) :
    c.determine_next_state w
        = some (lifeRule c.alive (mooreCount w c.coordinate.x c.coordinate.y))
      ∧ mooreCount w 0 0
        = (([((0 : Int), (1 : Int)), (1, 0), (1, 1)]).filter (nbPred w 0 0)).length
      ∧ mooreCount w 0 0 ≤ 3 := by
  have z1 : nbPred w 0 0 (-1, -1) = false := rfl
  have z2 : nbPred w 0 0 (-1, 0) = false := rfl
  have z3 : nbPred w 0 0 (-1, 1) = false := rfl
  have z4 : nbPred w 0 0 (0, -1) = false := rfl
  have z5 : nbPred w 0 0 (1, -1) = false := rfl
  have hcorner : mooreCount w 0 0
      = (([((0 : Int), (1 : Int)), (1, 0), (1, 1)]).filter (nbPred w 0 0)).length := by
    rw [mooreCount, mooreOffsets]
    simp only [List.filter_cons, List.filter_nil, z1, z2, z3, z4, z5,
      Bool.false_eq_true, if_false]
  refine ⟨determine_next_state_eq hw c, hcorner, ?_⟩
  rw [hcorner]
  simpa using List.length_filter_le (nbPred w 0 0) [((0 : Int), (1 : Int)), (1, 0), (1, 1)]

/-- C3 witness: the neighbor-count theorem instantiated at the concrete 3×3
world `w3` and a corner cell. -/
theorem neighbor_count_moore_bounded_witness :
    Cell.determine_next_state ⟨false, ⟨0, 0⟩⟩ w3
        = some (lifeRule false (mooreCount w3 0 0))
      ∧ mooreCount w3 0 0
        = (([((0 : Int), (1 : Int)), (1, 0), (1, 1)]).filter (nbPred w3 0 0)).length
      ∧ mooreCount w3 0 0 ≤ 3 :=
  neighbor_count_moore_bounded w3 (WF_new _ _) ⟨false, ⟨0, 0⟩⟩

/-- C4 counterexample: `World::new` called with width 0 does NOT fail — it
returns a fully formed `World` (with an empty cell matrix), whereas the
spec's `Construct` would fail with `InvalidDimensions` on the same input.
The engine performs no dimension validation at all. -/
theorem new_zero_width_produces_world :
    World.new ⟨0, 3⟩ (fun _ _ => true)
        = { frames := 0, size := ⟨0, 3⟩, cells := [], changed := false }
      ∧ constructSpec ⟨0, 3⟩ (fun _ _ => true)
        = Except.error ConstructError.invalidDimensions := by
  constructor
  · rfl
  · rfl

/-- C4 amended: `World::new` itself performs no dimension validation and
always succeeds (any size, zero or negative included, yields a well-formed
`World` with `frames = 0`); the rejection of non-positive dimensions lives in
the input-gathering collaborator `ask_for_world_size`, whose acceptance test
admits an entered value iff it is at least 2, so the program never constructs
a grid with non-positive dimensions. -/
theorem construction_total_and_input_gated :
    (∀ (size : Vector) (draw : Int → Int → Bool),
        (World.new size draw).size = size ∧ (World.new size draw).frames = 0
          ∧ WF (World.new size draw))
      ∧ (∀ v : Int, acceptDimension v = true ↔ 2 ≤ v) := by
  constructor
  · exact fun size draw => ⟨rfl, rfl, WF_new size draw⟩
  · intro v
    rw [acceptDimension]
    simp
    omega

/-- C5: after a `tick`, the `changed` flag is true iff at least one in-range
cell's liveness differs between the pre-pass and post-pass states. -/
theorem changed_iff_some_cell_differs (w w' : World) (hw : WF w)
    (ht : w.tick = some w') :
    w'.changed = true ↔
      ∃ x y : Nat, x < w.size.x.toNat ∧ y < w.size.y.toNat ∧
        curAlive w' (x, y) ≠ curAlive w (x, y) := by
  rw [tick_master hw] at ht
  cases ht
  exact tickResult_changed_iff hw

/-- C5 witness: the changed-flag theorem instantiated at the concrete 3×3
world `w3` and its tick result `w3t`. -/
theorem changed_iff_some_cell_differs_witness :
    w3t.changed = true ↔
      ∃ x y : Nat, x < w3.size.x.toNat ∧ y < w3.size.y.toNat ∧
        curAlive w3t (x, y) ≠ curAlive w3 (x, y) :=
  changed_iff_some_cell_differs w3 w3t (WF_new _ _) (by decide)

/-- C6 counterexample: the claim "after one tick the counter equals its value
before plus 1" fails at the well-formed 1×1 world `wOv` whose `u64` counter
holds `2 ^ 64 - 1`: the tick succeeds and the counter wraps to 0, which is
neither `wOv.frames + 1` nor ≥ `wOv.frames` (so monotonic non-decrease fails
too). -/
theorem generation_counter_wraps :
    WF wOv ∧ wOv.tick = some wOvt ∧ wOvt.frames = 0
      ∧ wOvt.frames ≠ wOv.frames + 1 ∧ wOvt.frames < wOv.frames :=
  ⟨WF_congr rfl rfl (WF_new ⟨1, 1⟩ (fun _ _ => false)),
    by decide, by decide, by decide, by decide⟩

/-- C6 amended: the generation counter `frames` starts at 0 on construction,
and `k` successive ticks from any well-formed world whose counter is a valid
`u64` value set it to the value before plus `k`, modulo `2 ^ 64` (each tick
adds exactly 1 modulo `2 ^ 64`; in particular the counter equals the exact
number of ticks until `2 ^ 64` ticks have occurred). -/
theorem generation_counter_adds_k_mod (size : Vector) (draw : Int → Int → Bool)
    (w : World) (hw : WF w) (hf : w.frames < 2 ^ 64) (k : Nat) :
    (World.new size draw).frames = 0
      ∧ ∃ w', w.tickN k = some w' ∧ w'.frames = (w.frames + k) % 2 ^ 64 := by
  obtain ⟨w', h1, _, _, h4, _, _⟩ := tickN_master hw k
  refine ⟨rfl, w', h1, ?_⟩
  rcases h4 with h4 | ⟨rfl, h4⟩
  · exact h4
  · rw [h4, Nat.add_zero, Nat.mod_eq_of_lt hf]

/-- C6 witness: the amended generation-counter theorem instantiated at the
concrete 3×3 world `w3` with k = 2. -/
theorem generation_counter_adds_k_mod_witness :
    (World.new ⟨3, 3⟩ (fun x y => x == 1 && y == 1)).frames = 0
      ∧ ∃ w', w3.tickN 2 = some w' ∧ w'.frames = (w3.frames + 2) % 2 ^ 64 :=
  generation_counter_adds_k_mod ⟨3, 3⟩ (fun x y => x == 1 && y == 1) w3
    (WF_new _ _) (by decide) 2

/-- C7: `draw_world` succeeds on every well-formed world and produces exactly
`height` rows of exactly `width` glyphs each, joined with one newline per
row, where the glyph at column x of row y is # iff cell (x,y) is live and a
blank otherwise.  The operation reads the world and mutates nothing (it is a
pure function of `w`). -/
theorem draw_world_dimensions (w : World) (hw : WF w) :
    ∃ rows : List (List Char),
      w.drawRows? = some rows
      ∧ w.draw_world = some (String.join (rows.map (fun r => String.mk r ++ "\n")))
      ∧ rows.length = w.size.y.toNat
      ∧ (∀ r ∈ rows, r.length = w.size.x.toNat)
      ∧ (∀ x y : Nat, x < w.size.x.toNat → y < w.size.y.toNat →
          (rows.getD y []).getD x ' ' = if curAlive w (x, y) then '#' else ' ') := by
  refine ⟨_, drawRows?_eq hw, ?_, ?_, ?_, ?_⟩
  · rw [World.draw_world, drawRows?_eq hw, Option.map_some']
  · rw [List.length_map, List.length_range]
  · intro r hr
    obtain ⟨y, _, rfl⟩ := List.mem_map.mp hr
    rw [List.length_map, List.length_range]
  · intro x y hx hy
    have hrow : ((List.range w.size.y.toNat).map (fun y =>
          (List.range w.size.x.toNat).map
            (fun x => if curAlive w (x, y) then '#' else ' '))).getD y []
        = (List.range w.size.x.toNat).map
            (fun x => if curAlive w (x, y) then '#' else ' ') := by
      rw [List.getD_eq_get?, get?_map_range, if_pos hy, Option.getD_some]
    rw [hrow, List.getD_eq_get?, get?_map_range, if_pos hx, Option.getD_some]

/-- C7 witness: the render theorem instantiated at the concrete 3×3 world
`w3`. -/
theorem draw_world_dimensions_witness :
    ∃ rows : List (List Char),
      w3.drawRows? = some rows
      ∧ w3.draw_world = some (String.join (rows.map (fun r => String.mk r ++ "\n")))
      ∧ rows.length = w3.size.y.toNat
      ∧ (∀ r ∈ rows, r.length = w3.size.x.toNat)
      ∧ (∀ x y : Nat, x < w3.size.x.toNat → y < w3.size.y.toNat →
          (rows.getD y []).getD x ' ' = if curAlive w3 (x, y) then '#' else ' ') :=
  draw_world_dimensions w3 (WF_new _ _)

/-- C8: on every well-formed world (any positive size, 1×1 included), both
`tick` and `draw_world` are total: they return a value, never the `none`
that models a Rust panic. -/
theorem tick_and_draw_total (w : World) (hw : WF w) :
    (∃ w', w.tick = some w') ∧ (∃ s, w.draw_world = some s) := by
  refine ⟨⟨tickResult w, tick_master hw⟩, ?_⟩
  exact ⟨_, by rw [World.draw_world, drawRows?_eq hw]; rfl⟩

/-- C8 witness: totality instantiated at the concrete 1×1 world `w1`. -/
theorem tick_and_draw_total_witness :
    (∃ w', w1.tick = some w') ∧ (∃ s, w1.draw_world = some s) :=
  tick_and_draw_total w1 (WF_new _ _)

/-- C9: any number of ticks leaves the grid's dimensions unchanged — the
size vector, the number of rows and every row length are preserved, and
every surviving cell keeps its coordinate (only liveness, the frame counter
and the changed flag are modified). -/
theorem dimensions_invariant_under_ticks (w : World) (hw : WF w) (k : Nat) :
    ∃ w', w.tickN k = some w'
      ∧ w'.size = w.size
      ∧ (∀ i, (w'.cells.get? i).map List.length = (w.cells.get? i).map List.length)
      ∧ (∀ i j c', get2? w'.cells i j = some c' →
          ∃ c, get2? w.cells i j = some c ∧ c'.coordinate = c.coordinate) := by
  obtain ⟨w', h1, _, h3, _, h5, h6⟩ := tickN_master hw k
  exact ⟨w', h1, h3, h5, h6⟩

/-- C9 witness: dimension invariance instantiated at the concrete 3×3 world
`w3` with k = 5. -/
theorem dimensions_invariant_under_ticks_witness :
    ∃ w', w3.tickN 5 = some w'
      ∧ w'.size = w3.size
      ∧ (∀ i, (w'.cells.get? i).map List.length = (w3.cells.get? i).map List.length)
      ∧ (∀ i j c', get2? w'.cells i j = some c' →
          ∃ c, get2? w3.cells i j = some c ∧ c'.coordinate = c.coordinate) :=
  dimensions_invariant_under_ticks w3 (WF_new _ _) 5

/-- C10: quiescence is permanent — if a tick reports `changed = false`, the
pre-tick state was a fixed point of the transition rule, the tick left every
cell unchanged, and every number of further ticks still leaves all cells
unchanged and still reports `changed = false`. -/
theorem quiescence_permanent (w w' : World) (hw : WF w) (ht : w.tick = some w')
    (hq : w'.changed = false) :
    (∀ x y : Nat, x < w.size.x.toNat → y < w.size.y.toNat →
        lifeRule (curAlive w (x, y)) (mooreCount w (x : Int) (y : Int)) = curAlive w (x, y))
      ∧ w'.cells = w.cells
      ∧ (∀ k : Nat, ∃ w'', w'.tickN k = some w''
          ∧ w''.cells = w.cells ∧ w''.changed = false) := by
  rw [tick_master hw] at ht
  cases ht
  have hnil : deltas w = [] := by
    have hdec : decide ((deltas w).length > 0) = false := hq
    rcases hd : deltas w with _ | ⟨t, l⟩
    · rfl
    · rw [hd] at hdec
      simp at hdec
  have hfix : ∀ p ∈ w.tickPairs, nextAlive w p = curAlive w p := by
    intro p hp
    have hfp := List.filterMap_eq_nil.mp hnil p hp
    by_cases hx : nextAlive w p = curAlive w p
    · exact hx
    · rw [if_neg hx] at hfp
      cases hfp
  have hcells : (tickResult w).cells = w.cells := quiescent_cells hw hnil
  have main : ∀ (k : Nat) (u : World), WF u → u.cells = w.cells → u.size = w.size →
      u.changed = false →
      ∃ w'', u.tickN k = some w'' ∧ w''.cells = w.cells ∧ w''.changed = false := by
    intro k
    induction k with
    | zero => exact fun u _ hc _ hch => ⟨u, rfl, hc, hch⟩
    | succ k ih =>
      intro u hu hc hs hch
      have hdu : deltas u = [] := by
        rw [deltas_congr hs hc]
        exact hnil
      have hcellsu : (tickResult u).cells = u.cells := quiescent_cells hu hdu
      have hchu : (tickResult u).changed = false := by
        show decide ((deltas u).length > 0) = false
        rw [hdu]
        rfl
      obtain ⟨w'', h1, h2, h3⟩ :=
        ih (tickResult u) (WF_tickResult hu) (hcellsu.trans hc) hs hchu
      refine ⟨w'', ?_, h2, h3⟩
      show u.tick.bind (fun v => v.tickN k) = some w''
      rw [tick_master hu, Option.some_bind]
      exact h1
  exact ⟨fun x y hx hy => hfix (x, y) (mem_tickPairs.mpr ⟨hx, hy⟩), hcells,
    fun k => main k (tickResult w) (WF_tickResult hw) hcells rfl hq⟩

/-- C10 witness: permanence of quiescence instantiated at the concrete 4×4
still-life world `wB` and its tick result `wBt`. -/
theorem quiescence_permanent_witness :
    (∀ x y : Nat, x < wB.size.x.toNat → y < wB.size.y.toNat →
        lifeRule (curAlive wB (x, y)) (mooreCount wB (x : Int) (y : Int)) = curAlive wB (x, y))
      ∧ wBt.cells = wB.cells
      ∧ (∀ k : Nat, ∃ w'', wBt.tickN k = some w''
          ∧ w''.cells = wB.cells ∧ w''.changed = false) :=
  quiescence_permanent wB wBt (WF_new _ _) (by decide) (by decide)

end Conway
